import Mathlib

/-!
Verification of the reproducible reduction engine of the feltor library.

Floating-point doubles are embedded as exact rationals (ℚ).  The platform's
round-to-nearest operation (the single rounding step performed by a hardware
multiply or fused multiply-add) is an explicit parameter `fl : ℚ → ℚ` of every
kernel; the concrete instance `fl53` below implements IEEE-754 binary64
round-to-nearest, ties-to-even, and is used for concrete evaluations.
The exblas superaccumulator (`accumulate.h`, not part of the sources under
study) is modelled by the exact rational value it represents.
-/

set_option maxRecDepth 40000

attribute [local semireducible] Rat.mul Rat.add Rat.sub Rat.inv Rat.ofScientific

namespace feltor

/-- Fuel-driven binary length: `bitlen fuel n` is the number of binary digits
of `n`, provided `fuel ≥ log2 n`. -/
def bitlen : ℕ → ℕ → ℕ
| 0, _ => 0
| f+1, n => if n = 0 then 0 else bitlen f (n / 2) + 1

/-- Number of binary digits of `n` (`bits 0 = 0`, `2^(bits n - 1) ≤ n < 2^(bits n)`). -/
def bits (n : ℕ) : ℕ := bitlen n n

/-- Floor of a rational, computed by primitive integer division. -/
def qfloor (q : ℚ) : ℤ := q.num.fdiv q.den

/-- `2^e` as a rational, for any integer exponent `e`. -/
def pow2 (e : ℤ) : ℚ := if 0 ≤ e then mkRat ((2:ℤ) ^ e.toNat) 1 else mkRat 1 (2 ^ (-e).toNat)

/-- Absolute value of a rational. -/
def qabs (q : ℚ) : ℚ := if q < 0 then -q else q

/-- Modelled from the spec: the IEEE-754 binary64 rounding (round to nearest,
ties to even) applied by every double-precision arithmetic operation of the
source.  Exponent-range limits (overflow/underflow of binary64) are not
modelled; values are rounded to 53 significant bits at every magnitude. -/
def fl53 (q : ℚ) : ℚ :=
  if q = 0 then 0 else
  let B : ℤ := (bits q.num.natAbs : ℤ) - (bits q.den : ℤ)
  let e : ℤ := if qabs q < pow2 B then B - 53 else B - 52
  let s : ℚ := q / pow2 e
  let n : ℤ := qfloor s
  let r : ℚ := s - (n : ℚ)
  let m : ℤ := if r < mkRat 1 2 then n else if mkRat 1 2 < r then n + 1 else
    if n % 2 = 0 then n else n + 1
  (m : ℚ) * pow2 e

/-- Modelled from the spec: `TwoProductFMA` of `ExSUM.FPE.hpp` (not under the
sources studied).  `head` is the rounded product `fl(a·b)`; the fused
multiply-add `fma(a, b, -head)` computes `a·b - head` without intermediate
rounding, and that exact residual is representable, so `tail = a·b - head`. -/
def TwoProductFMA (fl : ℚ → ℚ) (a b : ℚ) : ℚ × ℚ := (fl (a * b), a * b - fl (a * b))

/-- One full-width SIMD chunk of the two-array kernel `ExDOTFPE_cpu`
(`exdot.fpe_cpu.cpp`, lines 21-28): the error-free transform of the eight
lane-wise products is formed and both resulting vectors are accumulated.
The FPE cache (`FPExpansionVect`, not under the sources studied) is modelled
by the exact value it accumulates. -/
def chunkDot2 (fl : ℚ → ℚ) (a b : ℕ → ℚ) (s : ℕ) : ℚ :=
  (∑ j ∈ Finset.range 8, (TwoProductFMA fl (a (s + j)) (b (s + j))).1) +
  ∑ j ∈ Finset.range 8, (TwoProductFMA fl (a (s + j)) (b (s + j))).2

/-- The remainder chunk of the two-array kernel (`exdot.fpe_cpu.cpp`, lines
29-36): `load_partial` fills the first `k` lanes from the arrays and the
remaining lanes with zero. -/
def chunkDot2Rem (fl : ℚ → ℚ) (a b : ℕ → ℚ) (s k : ℕ) : ℚ :=
  (∑ j ∈ Finset.range 8,
    (TwoProductFMA fl (if j < k then a (s + j) else 0) (if j < k then b (s + j) else 0)).1) +
  ∑ j ∈ Finset.range 8,
    (TwoProductFMA fl (if j < k then a (s + j) else 0) (if j < k then b (s + j) else 0)).2

/-- The main loop of the two-array `ExDOTFPE_cpu`, iterated over `k` chunks of
width 8 starting at offsets `0, 8, …, 8(k-1)`. -/
def loopDot2 (fl : ℚ → ℚ) (a b : ℕ → ℚ) : ℕ → ℚ
| 0 => 0
| k+1 => loopDot2 fl a b k + chunkDot2 fl a b (8 * k)

/-- The two-array kernel `ExDOTFPE_cpu(N, a, b, acc)` (`exdot.fpe_cpu.cpp`,
lines 14-38): `r = N & ~7` full chunks of 8 followed by one partial-width
remainder chunk when `r ≠ N`; the accumulator value it adds to `acc`. -/
def ExDOTFPE_cpu2 (fl : ℚ → ℚ) (N : ℕ) (a b : ℕ → ℚ) : ℚ :=
  if 8 * (N / 8) ≠ N then
    loopDot2 fl a b (N / 8) + chunkDot2Rem fl a b (8 * (N / 8)) (N - 8 * (N / 8))
  else loopDot2 fl a b (N / 8)

/-- The two-array `exdot_cpu(size, x1, x2, acc)` (`exdot.fpe_cpu.cpp`, lines
79-85): the superaccumulator is zeroed and the kernel is run, so its final
value is exactly the kernel's contribution. -/
def exdot_cpu2 (fl : ℚ → ℚ) (size : ℕ) (x1 x2 : ℕ → ℚ) : ℚ :=
  ExDOTFPE_cpu2 fl size x1 x2

/-- Modelled from the spec: `exblas::cpu::Round` (`accumulate.h`, not under
the sources studied) reconstructs the IEEE double nearest to the exact value
held by the superaccumulator — one application of the rounding map. -/
def Round (fl : ℚ → ℚ) (acc : ℚ) : ℚ := fl acc

lemma chunkDot2_eq (fl : ℚ → ℚ) (a b : ℕ → ℚ) (s : ℕ) :
    chunkDot2 fl a b s = ∑ j ∈ Finset.range 8, a (s + j) * b (s + j) := by
  rw [chunkDot2, ← Finset.sum_add_distrib]
  refine Finset.sum_congr rfl fun j _ => ?_
  simp [TwoProductFMA]

lemma chunkDot2Rem_eq (fl : ℚ → ℚ) (a b : ℕ → ℚ) (s k : ℕ) (hk : k ≤ 8) :
    chunkDot2Rem fl a b s k = ∑ j ∈ Finset.range k, a (s + j) * b (s + j) := by
  rw [chunkDot2Rem, ← Finset.sum_add_distrib]
  have h1 : ∀ j ∈ Finset.range 8,
      (TwoProductFMA fl (if j < k then a (s + j) else 0) (if j < k then b (s + j) else 0)).1 +
      (TwoProductFMA fl (if j < k then a (s + j) else 0) (if j < k then b (s + j) else 0)).2 =
      if j < k then a (s + j) * b (s + j) else 0 := by
    intro j _
    by_cases hj : j < k <;> simp [TwoProductFMA, hj]
  rw [Finset.sum_congr rfl h1]
  rw [← Finset.sum_subset (Finset.range_subset.mpr hk)
    (fun x _ hx => if_neg (by simpa using hx))]
  exact Finset.sum_congr rfl fun x hx => if_pos (Finset.mem_range.mp hx)

lemma loopDot2_eq (fl : ℚ → ℚ) (a b : ℕ → ℚ) (k : ℕ) :
    loopDot2 fl a b k = ∑ i ∈ Finset.range (8 * k), a i * b i := by
  induction k with
  | zero => simp [loopDot2]
  | succ k ih =>
    rw [loopDot2, ih, chunkDot2_eq, Nat.mul_succ, Finset.sum_range_add]

/-- The two-array kernel accumulates the exact dot product: chunking by 8 with
a partial remainder does not change the represented value. -/
lemma ExDOTFPE_cpu2_eq (fl : ℚ → ℚ) (N : ℕ) (a b : ℕ → ℚ) :
    ExDOTFPE_cpu2 fl N a b = ∑ i ∈ Finset.range N, a i * b i := by
  by_cases h : 8 * (N / 8) = N
  · rw [ExDOTFPE_cpu2, if_neg (not_ne_iff.mpr h), loopDot2_eq, h]
  · rw [ExDOTFPE_cpu2, if_pos h, loopDot2_eq, chunkDot2Rem_eq fl a b _ _ (by omega)]
    have h2 : N - 8 * (N / 8) = N % 8 := by omega
    have h3 : N = 8 * (N / 8) + N % 8 := (Nat.div_add_mod N 8).symm
    rw [h2]
    conv_rhs => rw [h3]
    rw [Finset.sum_range_add]

/-- One full-width SIMD chunk of the three-array kernel `ExDOTFPE_cpu`
(`exdot.fpe_cpu.cpp`, lines 46-58): the live code computes
`x1 = mul_add(a, b, 0)` and `x2 = mul_add(x1, c, 0)` — each a single rounded
operation — and accumulates only `x2`; the `TwoProductFMA` calls are
commented out in the source. -/
def chunkDot3 (fl : ℚ → ℚ) (a b c : ℕ → ℚ) (s : ℕ) : ℚ :=
  ∑ j ∈ Finset.range 8, fl (fl (a (s + j) * b (s + j)) * c (s + j))

/-- The remainder chunk of the three-array kernel (`exdot.fpe_cpu.cpp`, lines
59-71), with `load_partial` zero-padding of the lanes beyond `k`. -/
def chunkDot3Rem (fl : ℚ → ℚ) (a b c : ℕ → ℚ) (s k : ℕ) : ℚ :=
  ∑ j ∈ Finset.range 8,
    fl (fl ((if j < k then a (s + j) else 0) * (if j < k then b (s + j) else 0)) *
      (if j < k then c (s + j) else 0))

/-- The main loop of the three-array `ExDOTFPE_cpu` over `k` chunks of 8. -/
def loopDot3 (fl : ℚ → ℚ) (a b c : ℕ → ℚ) : ℕ → ℚ
| 0 => 0
| k+1 => loopDot3 fl a b c k + chunkDot3 fl a b c (8 * k)

/-- The three-array kernel `ExDOTFPE_cpu(N, a, b, c, acc)` (`exdot.fpe_cpu.cpp`,
lines 40-73). -/
def ExDOTFPE_cpu3 (fl : ℚ → ℚ) (N : ℕ) (a b c : ℕ → ℚ) : ℚ :=
  if 8 * (N / 8) ≠ N then
    loopDot3 fl a b c (N / 8) + chunkDot3Rem fl a b c (8 * (N / 8)) (N - 8 * (N / 8))
  else loopDot3 fl a b c (N / 8)

/-- The three-array `exdot_cpu(size, x1, x2, x3, acc)` (`exdot.fpe_cpu.cpp`,
lines 90-96): superaccumulator zeroed, then the kernel is run. -/
def exdot_cpu3 (fl : ℚ → ℚ) (size : ℕ) (x1 x2 x3 : ℕ → ℚ) : ℚ :=
  ExDOTFPE_cpu3 fl size x1 x2 x3

/-- The accumulation claimed by the spec for the triple product: the error-free
transform is applied to `a·b` and then to `head_ab·c`, and the head and tail of
the second transform are both accumulated, so that per element the exact value
`head_ab·c = fl(a·b)·c` is retained and only the tail-of-tail (the product of
the first tail with `c`) is discarded.  Stated from the spec's words, to be
compared with the source kernel `ExDOTFPE_cpu3`. -/
def specTripleEFT (fl : ℚ → ℚ) (N : ℕ) (a b c : ℕ → ℚ) : ℚ :=
  ∑ i ∈ Finset.range N,
    ((TwoProductFMA fl (TwoProductFMA fl (a i) (b i)).1 (c i)).1 +
     (TwoProductFMA fl (TwoProductFMA fl (a i) (b i)).1 (c i)).2)

lemma chunkDot3Rem_eq (fl : ℚ → ℚ) (h0 : fl 0 = 0) (a b c : ℕ → ℚ) (s k : ℕ) (hk : k ≤ 8) :
    chunkDot3Rem fl a b c s k =
      ∑ j ∈ Finset.range k, fl (fl (a (s + j) * b (s + j)) * c (s + j)) := by
  rw [chunkDot3Rem]
  have h1 : ∀ j ∈ Finset.range 8,
      fl (fl ((if j < k then a (s + j) else 0) * (if j < k then b (s + j) else 0)) *
        (if j < k then c (s + j) else 0)) =
      if j < k then fl (fl (a (s + j) * b (s + j)) * c (s + j)) else 0 := by
    intro j _
    by_cases hj : j < k <;> simp [hj, h0]
  rw [Finset.sum_congr rfl h1]
  rw [← Finset.sum_subset (Finset.range_subset.mpr hk)
    (fun x _ hx => if_neg (by simpa using hx))]
  exact Finset.sum_congr rfl fun x hx => if_pos (Finset.mem_range.mp hx)

lemma loopDot3_eq (fl : ℚ → ℚ) (a b c : ℕ → ℚ) (k : ℕ) :
    loopDot3 fl a b c k = ∑ i ∈ Finset.range (8 * k), fl (fl (a i * b i) * c i) := by
  induction k with
  | zero => simp [loopDot3]
  | succ k ih =>
    rw [loopDot3, ih, chunkDot3, Nat.mul_succ, Finset.sum_range_add]

/-- The three-array kernel accumulates, per element, exactly the doubly
rounded product `fl(fl(a·b)·c)` — no error terms. -/
lemma ExDOTFPE_cpu3_eq (fl : ℚ → ℚ) (h0 : fl 0 = 0) (N : ℕ) (a b c : ℕ → ℚ) :
    ExDOTFPE_cpu3 fl N a b c = ∑ i ∈ Finset.range N, fl (fl (a i * b i) * c i) := by
  by_cases h : 8 * (N / 8) = N
  · rw [ExDOTFPE_cpu3, if_neg (not_ne_iff.mpr h), loopDot3_eq, h]
  · rw [ExDOTFPE_cpu3, if_pos h, loopDot3_eq, chunkDot3Rem_eq fl h0 a b c _ _ (by omega)]
    have h2 : N - 8 * (N / 8) = N % 8 := by omega
    have h3 : N = 8 * (N / 8) + N % 8 := (Nat.div_add_mod N 8).symm
    rw [h2]
    conv_rhs => rw [h3]
    rw [Finset.sum_range_add]

/-- Claim C4: for every length `N`, the two-array local reduction kernel
processes the sequences in chunks of 8 plus a zero-padded remainder chunk, and
the accumulated value is the exact sum of all products `a i * b i` for `i < N`
— independent of the chunked grouping, since it equals the canonical
ungrouped sum. -/
theorem C4_chunking_does_not_change_result (fl : ℚ → ℚ) (N : ℕ) (a b : ℕ → ℚ) :
    ExDOTFPE_cpu2 fl N a b = ∑ i ∈ Finset.range N, a i * b i :=
  ExDOTFPE_cpu2_eq fl N a b

/-- Claim C5: the error-free transform of the two-array kernel produces
`head = fl(a·b)` and `tail` with `head + tail = a·b` exactly, and the kernel's
chunk accumulates both terms, so each chunk contributes the exact sum of its
eight products. -/
theorem C5_two_product_fma_exact (fl : ℚ → ℚ) (a b : ℚ) :
    (TwoProductFMA fl a b).1 = fl (a * b) ∧
    (TwoProductFMA fl a b).1 + (TwoProductFMA fl a b).2 = a * b ∧
    ∀ (aF bF : ℕ → ℚ) (s : ℕ),
      chunkDot2 fl aF bF s = ∑ j ∈ Finset.range 8, aF (s + j) * bF (s + j) :=
  ⟨rfl, by simp [TwoProductFMA], fun aF bF s => chunkDot2_eq fl aF bF s⟩

/-- Claim C1 (counterexample): on the single-element input
`a = b = c = 1 + 2^-52` the source's three-array kernel does not accumulate
the head and tail of the transform of `head_ab·c`; it accumulates only the
doubly rounded product, which differs from the spec-claimed accumulation by
the discarded second tail `2^-103`. -/
theorem C1_counterexample :
    ExDOTFPE_cpu3 fl53 1 (fun _ => 1 + pow2 (-52)) (fun _ => 1 + pow2 (-52))
        (fun _ => 1 + pow2 (-52)) ≠
      specTripleEFT fl53 1 (fun _ => 1 + pow2 (-52)) (fun _ => 1 + pow2 (-52))
        (fun _ => 1 + pow2 (-52)) := by
  decide

/-- Claim C1 (amended): the three-array kernel applies two bare rounded
multiplications per element and accumulates only the doubly rounded product
`fl(fl(a·b)·c)`; both rounding-error tails are discarded (the error-free
transform of the source is commented out), not just the tail-of-tail. -/
theorem C1_triple_kernel_drops_both_tails (fl : ℚ → ℚ) (h0 : fl 0 = 0) (N : ℕ)
    (a b c : ℕ → ℚ) :
    ExDOTFPE_cpu3 fl N a b c = ∑ i ∈ Finset.range N, fl (fl (a i * b i) * c i) :=
  ExDOTFPE_cpu3_eq fl h0 N a b c

/-- Witness for C1's amended theorem at `fl = fl53`, `N = 1`, `a·b·c = 2·3·4`. -/
theorem C1_triple_kernel_drops_both_tails_witness :
    fl53 0 = 0 ∧ ExDOTFPE_cpu3 fl53 1 (fun _ => 2) (fun _ => 3) (fun _ => 4) = 24 := by
  refine ⟨by decide, ?_⟩
  rw [C1_triple_kernel_drops_both_tails fl53 (by decide) 1]
  decide

lemma sum_range_getD (l : List ℚ) :
    ∑ i ∈ Finset.range l.length, l.getD i 0 = l.sum := by
  induction l with
  | nil => simp
  | cons x xs ih =>
    rw [List.length_cons, Finset.sum_range_succ']
    simp only [List.getD_cons_succ, List.getD_cons_zero, List.sum_cons]
    rw [ih, add_comm]

/-- Claim C7: dotting any permutation of the crafted input
`[1e16, 1, -1e16, 1, 1, -1]` against ones, the engine's accumulator holds
exactly 2 and the rounded result is the double 2, independent of the order in
which the elements are fed. -/
theorem C7_crafted_input_returns_two (l : List ℚ)
    (hl : l.Perm [10000000000000000, 1, -10000000000000000, 1, 1, -1]) :
    exdot_cpu2 fl53 l.length (fun i => l.getD i 0) (fun _ => 1) = 2 ∧
    Round fl53 (exdot_cpu2 fl53 l.length (fun i => l.getD i 0) (fun _ => 1)) = 2 := by
  have hacc : exdot_cpu2 fl53 l.length (fun i => l.getD i 0) (fun _ => 1) = 2 := by
    rw [exdot_cpu2, ExDOTFPE_cpu2_eq]
    simp only [mul_one]
    rw [sum_range_getD, hl.sum_eq]
    decide
  exact ⟨hacc, by rw [hacc]; decide⟩

/-- Witness for C7 at the crafted input itself. -/
theorem C7_crafted_input_returns_two_witness :
    ([10000000000000000, 1, -10000000000000000, 1, 1, -1] : List ℚ).Perm
      [10000000000000000, 1, -10000000000000000, 1, 1, -1] ∧
    exdot_cpu2 fl53 ([10000000000000000, 1, -10000000000000000, 1, 1, -1] : List ℚ).length
      (fun i => ([10000000000000000, 1, -10000000000000000, 1, 1, -1] : List ℚ).getD i 0)
      (fun _ => 1) = 2 :=
  ⟨List.Perm.refl _, (C7_crafted_input_returns_two _ (List.Perm.refl _)).1⟩

/-- Modelled from the spec: the shared-memory `doDot_superacc` (dispatch not
under the sources studied) runs `exdot_cpu` on the three local arrays and
returns the superaccumulator; its value. -/
def doDot_superacc_cpu (fl : ℚ → ℚ) (xs ms ys : List ℚ) : ℚ :=
  exdot_cpu3 fl xs.length (fun i => xs.getD i 0) (fun i => ms.getD i 0) (fun i => ys.getD i 0)

/-- Modelled from the spec: `exblas::cpu::Normalize` (`accumulate.h`, not under
the sources studied) propagates carries between bins and preserves the value
the accumulator represents; at value level it is the identity. -/
def Normalize (acc : ℚ) : ℚ := acc

/-- The component-merge loop of `doDot_superacc` (`blas2_dispatch_mpi.h`,
lines 53-61): for `i = 1, …`, normalize `acc[0]` and `acc[i]` and add `acc[i]`
bin-wise into `acc[0]`.  An empty accumulator list yields the zero value. -/
def mergeAccs : List ℚ → ℚ
| [] => 0
| a :: rest => rest.foldl (fun a0 ai => Normalize a0 + Normalize ai) a

/-- Modelled from the spec: `exblas::reduce_mpi_cpu` (not under the sources
studied) merges the per-process superaccumulators over the two-level
communicator hierarchy, normalizing at each level, and leaves every process
with the same merged accumulator; its value is the merge of all local
accumulators. -/
def reduce_mpi_cpu (accs : List ℚ) : ℚ := mergeAccs accs

/-- The local accumulators of all processes for `doDot_superacc(x, P, y,
MPIVectorTag, MPIVectorTag)` (`blas2_dispatch_mpi.h`, lines 29-32): process
`p` computes the shared-memory superaccumulator of its local arrays. -/
def localAccs (fl : ℚ → ℚ) : List (List ℚ) → List (List ℚ) → List (List ℚ) → List ℚ
| xp :: xs, mp :: ms, yp :: ys => doDot_superacc_cpu fl xp mp yp :: localAccs fl xs ms ys
| _, _, _ => []

/-- `doDot_superacc(x, P, y, MPIVectorTag, MPIVectorTag)`
(`blas2_dispatch_mpi.h`, lines 14-37): local computation followed by
`reduce_mpi_cpu`; the merged accumulator every process receives. -/
def doDot_superacc_mpi_mpi (fl : ℚ → ℚ) (x m y : List (List ℚ)) : ℚ :=
  reduce_mpi_cpu (localAccs fl x m y)

/-- `doDot(x, P, y, MPIVectorTag)` (`blas2_dispatch_mpi.h`, lines 65-70):
round the merged superaccumulator. -/
def doDot_mpi3 (fl : ℚ → ℚ) (x m y : List (List ℚ)) : ℚ :=
  Round fl (doDot_superacc_mpi_mpi fl x m y)

/-- The result observed by process `pid`: every process holds the same merged
accumulator (the collective's contract) and applies the deterministic `Round`
to it. -/
def doDot_mpi3_on_process (fl : ℚ → ℚ) (x m y : List (List ℚ)) (_pid : ℕ) : ℚ :=
  Round fl (doDot_superacc_mpi_mpi fl x m y)

/-- `doDot(m, x, MPIVectorTag)` (`blas2_dispatch_mpi.h`, lines 72-77): calls
`doDot_superacc(x, m, x, …)` and rounds.  (The source's layout-tag argument
names an undeclared parameter `Vector1`; the layout of `x` is used here.) -/
def doDot_mpi2 (fl : ℚ → ℚ) (m x : List (List ℚ)) : ℚ :=
  Round fl (doDot_superacc_mpi_mpi fl x m x)

/-- The component loop of `doDot_superacc(x, m, y, MPIVectorTag,
VectorVectorTag)` (`blas2_dispatch_mpi.h`, lines 48-52): one sub-accumulator
per component, the same weight vector `m` for every component.  The source
loop runs over `x.size()` indices reading `y[i]`, so every access is in
bounds exactly when `x` has no more components than `y`; recursion on both
lists reproduces that loop in this regime.  (With `x` longer, the source
reads `y` out of bounds — undefined behaviour — and no theorem below relies
on this definition there.) -/
def compAccs (fl : ℚ → ℚ) (m : List (List ℚ)) :
    List (List (List ℚ)) → List (List (List ℚ)) → List ℚ
| xi :: xs, yi :: ys => doDot_superacc_mpi_mpi fl xi m yi :: compAccs fl m xs ys
| _, _ => []

/-- `doDot_superacc(x, m, y, MPIVectorTag, VectorVectorTag)`
(`blas2_dispatch_mpi.h`, lines 38-63).  The component-count check
`assert(x.size() == y.size())` is compiled only when `DG_DEBUG` is defined;
`dgDebug` carries that build flag.  A failing assertion is modelled as an
error result. -/
def doDot_superacc_mpi_vv (dgDebug : Bool) (fl : ℚ → ℚ) (x : List (List (List ℚ)))
    (m : List (List ℚ)) (y : List (List (List ℚ))) : Except String ℚ :=
  if dgDebug && !(x.length == y.length) then Except.error "x.size() == y.size()"
  else Except.ok (mergeAccs (compAccs fl m x y))

/-- Specification-side form of the accumulated value: the element-wise sum of
doubly rounded triple products over three equal-length lists. -/
def tripleSum (fl : ℚ → ℚ) : List ℚ → List ℚ → List ℚ → ℚ
| a :: as, b :: bs, c :: cs => fl (fl (a * b) * c) + tripleSum fl as bs cs
| _, _, _ => 0

lemma mergeAccs_eq_sum (l : List ℚ) : mergeAccs l = l.sum := by
  cases l with
  | nil => rfl
  | cons a rest =>
    rw [mergeAccs, List.sum_cons]
    induction rest generalizing a with
    | nil => simp
    | cons b bs ih =>
      rw [List.foldl_cons, ih, List.sum_cons, Normalize, Normalize]
      ring

lemma sum_range_triple_getD (fl : ℚ → ℚ) (xs ms ys : List ℚ)
    (h1 : xs.length = ms.length) (h2 : xs.length = ys.length) :
    ∑ i ∈ Finset.range xs.length, fl (fl (xs.getD i 0 * ms.getD i 0) * ys.getD i 0) =
      tripleSum fl xs ms ys := by
  induction xs generalizing ms ys with
  | nil => simp [tripleSum]
  | cons x xs ih =>
    cases ms with
    | nil => simp at h1
    | cons m ms =>
      cases ys with
      | nil => simp at h2
      | cons y ys =>
        rw [List.length_cons, Finset.sum_range_succ']
        simp only [List.getD_cons_succ, List.getD_cons_zero]
        rw [ih ms ys (by simpa using h1) (by simpa using h2), tripleSum, add_comm]

lemma doDot_superacc_cpu_eq (fl : ℚ → ℚ) (h0 : fl 0 = 0) (xs ms ys : List ℚ)
    (h1 : xs.length = ms.length) (h2 : xs.length = ys.length) :
    doDot_superacc_cpu fl xs ms ys = tripleSum fl xs ms ys := by
  rw [doDot_superacc_cpu, exdot_cpu3, ExDOTFPE_cpu3_eq fl h0]
  exact sum_range_triple_getD fl xs ms ys h1 h2

lemma tripleSum_append (fl : ℚ → ℚ) (as bs cs as' bs' cs' : List ℚ)
    (h1 : as.length = bs.length) (h2 : as.length = cs.length) :
    tripleSum fl (as ++ as') (bs ++ bs') (cs ++ cs') =
      tripleSum fl as bs cs + tripleSum fl as' bs' cs' := by
  induction as generalizing bs cs with
  | nil =>
    cases bs with
    | nil =>
      cases cs with
      | nil => simp [tripleSum]
      | cons c cs => simp at h2
    | cons b bs => simp at h1
  | cons a as ih =>
    cases bs with
    | nil => simp at h1
    | cons b bs =>
      cases cs with
      | nil => simp at h2
      | cons c cs =>
        show fl (fl (a * b) * c) + tripleSum fl (as ++ as') (bs ++ bs') (cs ++ cs') =
          fl (fl (a * b) * c) + tripleSum fl as bs cs + tripleSum fl as' bs' cs'
        rw [ih bs cs (by simpa using h1) (by simpa using h2), add_assoc]

lemma join_length_eq {l1 l2 : List (List ℚ)}
    (h : List.Forall₂ (fun u v => u.length = v.length) l1 l2) :
    l1.flatten.length = l2.flatten.length := by
  induction h with
  | nil => rfl
  | cons hd tl ih => simp only [List.flatten_cons, List.length_append, hd, ih]

lemma localAccs_sum (fl : ℚ → ℚ) (h0 : fl 0 = 0) (x m y : List (List ℚ))
    (hxm : List.Forall₂ (fun xp mp => xp.length = mp.length) x m)
    (hym : List.Forall₂ (fun yp mp => yp.length = mp.length) y m) :
    (localAccs fl x m y).sum = tripleSum fl x.flatten m.flatten y.flatten := by
  induction hxm generalizing y with
  | nil =>
    cases hym
    simp [localAccs, tripleSum]
  | @cons xp mp xs ms hpm htl ih =>
    cases hym with
    | cons hpy hty =>
      rename_i yp ys
      rw [localAccs, List.sum_cons, ih ys hty]
      simp only [List.flatten_cons]
      rw [tripleSum_append fl xp mp yp _ _ _ hpm (by rw [hpm]; exact hpy.symm ▸ rfl)]
      rw [doDot_superacc_cpu_eq fl h0 xp mp yp hpm (by rw [hpm]; exact hpy.symm ▸ rfl)]

/-- Claim C2: for every distribution of the data across the process group, the
distributed dot product yields on every process an identical double, equal to
the single-process computation over the concatenation of all processes' local
data; the final rounding is deterministic, so each process recomputing the
round step obtains the same value. -/
theorem C2_distributed_equals_single_process (fl : ℚ → ℚ) (h0 : fl 0 = 0)
    (x m y : List (List ℚ))
    (hxm : List.Forall₂ (fun xp mp => xp.length = mp.length) x m)
    (hym : List.Forall₂ (fun yp mp => yp.length = mp.length) y m) (p q : ℕ) :
    doDot_mpi3_on_process fl x m y p = doDot_mpi3_on_process fl x m y q ∧
    doDot_mpi3_on_process fl x m y p =
      Round fl (doDot_superacc_cpu fl x.flatten m.flatten y.flatten) := by
  refine ⟨rfl, ?_⟩
  rw [doDot_mpi3_on_process, doDot_superacc_mpi_mpi, reduce_mpi_cpu, mergeAccs_eq_sum,
    localAccs_sum fl h0 x m y hxm hym,
    doDot_superacc_cpu_eq fl h0 _ _ _ (join_length_eq hxm)
      ((join_length_eq hxm).trans (join_length_eq hym).symm)]

/-- Witness for C2: two processes, one element each. -/
theorem C2_distributed_equals_single_process_witness :
    fl53 0 = 0 ∧
    doDot_mpi3_on_process fl53 [[1], [2]] [[1], [1]] [[1], [1]] 0 =
      Round fl53 (doDot_superacc_cpu fl53 [1, 2] [1, 1] [1, 1]) :=
  ⟨by decide,
    (C2_distributed_equals_single_process fl53 (by decide) [[1], [2]] [[1], [1]] [[1], [1]]
      (.cons rfl (.cons rfl .nil)) (.cons rfl (.cons rfl .nil)) 0 1).2⟩

lemma flat_m_length (x : List (List (List ℚ))) (m : List (List ℚ)) :
    ((List.replicate x.length m.flatten).flatten).length = x.length * m.flatten.length := by
  induction x with
  | nil => simp
  | cons xi xs ih => simp [List.replicate_succ, ih, Nat.succ_mul, Nat.add_comm]

lemma compAccs_sum (fl : ℚ → ℚ) (h0 : fl 0 = 0) (x y : List (List (List ℚ)))
    (m : List (List ℚ))
    (halign : List.Forall₂ (fun xi yi =>
      List.Forall₂ (fun xp mp => xp.length = mp.length) xi m ∧
      List.Forall₂ (fun yp mp => yp.length = mp.length) yi m) x y) :
    (compAccs fl m x y).sum =
      tripleSum fl ((x.map List.flatten).flatten) ((List.replicate x.length m.flatten).flatten)
        ((y.map List.flatten).flatten) := by
  induction halign with
  | nil => simp [compAccs, tripleSum]
  | @cons xi yi xs ys hi htl ih =>
    rw [compAccs, List.sum_cons, ih]
    simp only [List.map_cons, List.flatten_cons, List.length_cons, List.replicate_succ]
    rw [tripleSum_append fl _ _ _ _ _ _ (join_length_eq hi.1)
      ((join_length_eq hi.1).trans (join_length_eq hi.2).symm)]
    rw [doDot_superacc_mpi_mpi, reduce_mpi_cpu, mergeAccs_eq_sum,
      localAccs_sum fl h0 xi m yi hi.1 hi.2]

lemma flat_x_length (x y : List (List (List ℚ))) (m : List (List ℚ))
    (halign : List.Forall₂ (fun xi yi =>
      List.Forall₂ (fun xp mp => xp.length = mp.length) xi m ∧
      List.Forall₂ (fun yp mp => yp.length = mp.length) yi m) x y) :
    ((x.map List.flatten).flatten).length = x.length * m.flatten.length ∧
    ((y.map List.flatten).flatten).length = x.length * m.flatten.length := by
  induction halign with
  | nil => simp
  | @cons xi yi xs ys hi htl ih =>
    simp only [List.map_cons, List.flatten_cons, List.length_append, List.length_cons,
      Nat.succ_mul]
    constructor
    · rw [ih.1, join_length_eq hi.1, Nat.add_comm]
    · rw [ih.2, join_length_eq hi.2, Nat.add_comm]

/-- Claim C3: for nested (vector-of-vectors) operands, `dot` computes one
sub-accumulator per component and merges them by normalizing and adding
bin-wise, and in every build the merged-and-rounded result equals the rounded
flattened single-address-space computation over the concatenated components
(with the weight vector repeated per component). -/
theorem C3_nested_equals_flattened (b : Bool) (fl : ℚ → ℚ) (h0 : fl 0 = 0)
    (x y : List (List (List ℚ))) (m : List (List ℚ))
    (halign : List.Forall₂ (fun xi yi =>
      List.Forall₂ (fun xp mp => xp.length = mp.length) xi m ∧
      List.Forall₂ (fun yp mp => yp.length = mp.length) yi m) x y) :
    Except.map (Round fl) (doDot_superacc_mpi_vv b fl x m y) =
      Except.ok (Round fl (doDot_superacc_cpu fl ((x.map List.flatten).flatten)
        ((List.replicate x.length m.flatten).flatten) ((y.map List.flatten).flatten))) := by
  have hlen : x.length = y.length := halign.length_eq
  rw [doDot_superacc_mpi_vv, if_neg (by simp [hlen])]
  rw [Except.map, mergeAccs_eq_sum, compAccs_sum fl h0 x y m halign]
  have hx := flat_x_length x y m halign
  rw [doDot_superacc_cpu_eq fl h0 _ _ _ (hx.1.trans (flat_m_length x m).symm)
    (hx.1.trans hx.2.symm)]

/-- Witness for C3: two components of one process with one element each. -/
theorem C3_nested_equals_flattened_witness :
    fl53 0 = 0 ∧
    Except.map (Round fl53) (doDot_superacc_mpi_vv true fl53 [[[1]], [[2]]] [[3]] [[[1]], [[1]]]) =
      Except.ok (Round fl53 (doDot_superacc_cpu fl53 [1, 2] [3, 3] [1, 1])) :=
  ⟨by decide,
    C3_nested_equals_flattened true fl53 (by decide) [[[1]], [[2]]] [[[1]], [[1]]] [[3]]
      (.cons ⟨.cons rfl .nil, .cons rfl .nil⟩ (.cons ⟨.cons rfl .nil, .cons rfl .nil⟩ .nil))⟩

/-- Claim C6 (counterexample): with `DG_DEBUG` undefined (a release build),
`x` holding 1 component and `y` holding 2, the nested dot of the source
reports no error: the loop runs over `x.size() = 1` components — every
`y[i]` access in bounds — and an ordinary accumulator is returned, the extra
component of `y` silently ignored. -/
theorem C6_counterexample :
    ([[[1]]] : List (List (List ℚ))).length ≠ ([[[3]], [[4]]] : List (List (List ℚ))).length ∧
    doDot_superacc_mpi_vv false fl53 [[[1]]] [[1]] [[[3]], [[4]]] = Except.ok 3 :=
  ⟨by decide, by rfl⟩

/-- Claim C6 (amended): the component-count check of the nested dot runs only
in `DG_DEBUG` builds, where a mismatch is reported before any accumulation.
In builds without `DG_DEBUG` a mismatch with fewer components in `x` than in
`y` (the direction in which every access of the source loop is in bounds) is
silently tolerated: an accumulator over `x`'s components is returned. -/
theorem C6_shape_check_only_in_debug (fl : ℚ → ℚ) (x : List (List (List ℚ)))
    (m : List (List ℚ)) (y : List (List (List ℚ))) (hlt : x.length < y.length) :
    doDot_superacc_mpi_vv true fl x m y = Except.error "x.size() == y.size()" ∧
    doDot_superacc_mpi_vv false fl x m y = Except.ok (mergeAccs (compAccs fl m x y)) := by
  have hne : x.length ≠ y.length := Nat.ne_of_lt hlt
  constructor
  · rw [doDot_superacc_mpi_vv, if_pos (by simp [hne])]
  · rw [doDot_superacc_mpi_vv, if_neg (by simp)]

/-- Witness for C6's amended theorem at component counts 1 and 2. -/
theorem C6_shape_check_only_in_debug_witness :
    ([[[1]]] : List (List (List ℚ))).length < ([[[3]], [[4]]] : List (List (List ℚ))).length ∧
    doDot_superacc_mpi_vv true fl53 [[[1]]] [[1]] [[[3]], [[4]]] =
      Except.error "x.size() == y.size()" :=
  ⟨by decide, (C6_shape_check_only_in_debug fl53 [[[1]]] [[1]] [[[3]], [[4]]] (by decide)).1⟩

/-- Claim C9: for MPI-distributed operands the two-argument `dot(m, x)`
computes the same value as the three-argument `dot(x, m, x)`: both round the
same merged superaccumulator of `x, m, x`. -/
theorem C9_two_arg_dot_equals_three_arg (fl : ℚ → ℚ) (m x : List (List ℚ)) :
    doDot_mpi2 fl m x = doDot_mpi3 fl x m x := rfl

/-- Modelled from the spec: `dg::blas1::scal(y, alpha)` (not under the sources
studied) scales the vector: `y ← alpha·y`. -/
def scal (y : ℕ → ℚ) (alpha : ℚ) : ℕ → ℚ := fun i => alpha * y i

/-- Modelled from the spec: the dispatch target `doSymv(alpha, P, x, beta, y)`
(not under the sources studied) computes the documented formula
`y = alpha·P·x + beta·y` for a diagonal preconditioner `P`. -/
def doSymv (alpha : ℚ) (P x : ℕ → ℚ) (beta : ℚ) (y : ℕ → ℚ) : ℕ → ℚ :=
  fun i => alpha * (P i * x i) + beta * y i

/-- `dg::blas2::symv(alpha, P, x, beta, y)` (`blas2.h`, lines 97-112): if
`alpha == 0` it scales `y` by `alpha` and returns; otherwise it dispatches to
`doSymv`. -/
def symv (alpha : ℚ) (P x : ℕ → ℚ) (beta : ℚ) (y : ℕ → ℚ) : ℕ → ℚ :=
  if alpha = 0 then scal y alpha else doSymv alpha P x beta y

/-- Modelled from the spec: the dispatch target `doGemv(alpha, P, x, beta, y)`
(not under the sources studied) computes `y = alpha·P·x + beta·y`. -/
def doGemv (alpha : ℚ) (P x : ℕ → ℚ) (beta : ℚ) (y : ℕ → ℚ) : ℕ → ℚ :=
  fun i => alpha * (P i * x i) + beta * y i

/-- `dg::blas2::gemv(alpha, P, x, beta, y)` (`blas2.h`, lines 163-178): same
early exit as `symv` for `alpha == 0`. -/
def gemv (alpha : ℚ) (P x : ℕ → ℚ) (beta : ℚ) (y : ℕ → ℚ) : ℕ → ℚ :=
  if alpha = 0 then scal y alpha else doGemv alpha P x beta y

/-- Claim C8: with `alpha = 0`, `symv` and `gemv` return after scaling `y` by
`alpha`, making every entry of `y` zero — independent of `P`, `x`, `beta` and
the prior (finite) value of `y`; in particular `beta·y` is not applied. -/
theorem C8_alpha_zero_scales_y_to_zero (P x : ℕ → ℚ) (beta : ℚ) (y : ℕ → ℚ) (i : ℕ) :
    symv 0 P x beta y i = 0 ∧ gemv 0 P x beta y i = 0 := by
  constructor <;> simp [symv, gemv, scal]

/-- The grid parameters used by the 2d MPI topology's index maps: `n`
polynomial coefficients and `Nx × Ny` cells, with
`size() = n·n·Nx·Ny` (`grid.h` via `mpi_grid.h`). -/
structure Grid2dPar where
  n : ℕ
  Nx : ℕ
  Ny : ℕ

/-- `Grid2d::size() = n*n*Nx*Ny`. -/
def Grid2dPar.size (g : Grid2dPar) : ℕ := g.n * g.n * g.Nx * g.Ny

/-- `dg::aMPITopology2d` (`mpi_grid.h`): global grid `g`, local grid `l`, and
the Cartesian communicator, abstracted by its coordinate/rank queries
(`MPI_Cart_coords` and `MPI_Cart_rank`, returning `none` on failure). -/
structure aMPITopology2d where
  g : Grid2dPar
  l : Grid2dPar
  cartCoords : ℤ → Option (ℤ × ℤ)
  cartRank : ℤ × ℤ → Option ℤ

/-- The C++ conversion from `int` to `bool`: any nonzero value converts to
`true`. -/
def cppIntToBool (i : ℤ) : Bool := i != 0

/-- `aMPITopology2d::local2globalIdx` (`mpi_grid.h`, lines 198-210).  The
out-of-range early exit executes `return -1;` in a function of return type
`bool`, so the returned value is `cppIntToBool (-1)`; the output parameter
`globalIdx` keeps its prior value.  The returned pair is (return value, final
`globalIdx`). -/
def aMPITopology2d.local2globalIdx (T : aMPITopology2d) (localIdx PID : ℤ)
    (globalIdx : ℤ) : Bool × ℤ :=
  if localIdx < 0 ∨ (T.g.size : ℤ) ≤ localIdx then (cppIntToBool (-1), globalIdx)
  else
    match T.cartCoords PID with
    | none => (false, globalIdx)
    | some (c0, c1) =>
      let lIdx0 := localIdx % ((T.l.n * T.l.Nx : ℕ) : ℤ)
      let lIdx1 := localIdx / ((T.l.n * T.l.Nx : ℕ) : ℤ)
      let gIdx0 := c0 * ((T.l.n * T.l.Nx : ℕ) : ℤ) + lIdx0
      let gIdx1 := c1 * ((T.l.n * T.l.Ny : ℕ) : ℤ) + lIdx1
      (true, gIdx1 * ((T.g.n * T.g.Nx : ℕ) : ℤ) + gIdx0)

/-- `aMPITopology2d::global2localIdx` (`mpi_grid.h`, lines 219-237).  The
out-of-range early exit likewise executes `return -1;`.  The returned triple
is (return value, final `localIdx`, final `PID`). -/
def aMPITopology2d.global2localIdx (T : aMPITopology2d) (globalIdx : ℤ)
    (localIdx PID : ℤ) : Bool × ℤ × ℤ :=
  if globalIdx < 0 ∨ (T.g.size : ℤ) ≤ globalIdx then (cppIntToBool (-1), localIdx, PID)
  else
    let gIdx0 := globalIdx % ((T.g.n * T.g.Nx : ℕ) : ℤ)
    let gIdx1 := globalIdx / ((T.g.n * T.g.Nx : ℕ) : ℤ)
    let c0 := gIdx0 / ((T.l.n * T.l.Nx : ℕ) : ℤ)
    let c1 := gIdx1 / ((T.l.n * T.l.Ny : ℕ) : ℤ)
    let lIdx0 := gIdx0 % ((T.l.n * T.l.Nx : ℕ) : ℤ)
    let lIdx1 := gIdx1 % ((T.l.n * T.l.Ny : ℕ) : ℤ)
    let lIdx := lIdx1 * ((T.l.n * T.l.Nx : ℕ) : ℤ) + lIdx0
    match T.cartRank (c0, c1) with
    | some r => (true, lIdx, r)
    | none => (false, lIdx, PID)

/-- Claim C10: for out-of-range indices the 2d index maps return `-1`
converted to `bool` — which is `true` — and leave their output parameters
unmodified, so the caller cannot detect the failure from the return value. -/
theorem C10_out_of_range_returns_true (T : aMPITopology2d) (localIdx PID gIn : ℤ)
    (globalIdx lIn pIn : ℤ)
    (h1 : localIdx < 0 ∨ (T.g.size : ℤ) ≤ localIdx)
    (h2 : globalIdx < 0 ∨ (T.g.size : ℤ) ≤ globalIdx) :
    cppIntToBool (-1) = true ∧
    T.local2globalIdx localIdx PID gIn = (true, gIn) ∧
    T.global2localIdx globalIdx lIn pIn = (true, lIn, pIn) := by
  refine ⟨rfl, ?_, ?_⟩
  · rw [aMPITopology2d.local2globalIdx, if_pos h1]
    rfl
  · rw [aMPITopology2d.global2localIdx, if_pos h2]
    rfl

/-- Witness for C10 on a 2-process 2×2-cell grid, with `localIdx = -1` and
`globalIdx = 100`. -/
theorem C10_out_of_range_returns_true_witness :
    ((-1 : ℤ) < 0 ∨ (((⟨⟨1, 2, 2⟩, ⟨1, 2, 1⟩, fun _ => none, fun _ => none⟩ :
        aMPITopology2d).g.size : ℤ) ≤ -1)) ∧
    (aMPITopology2d.local2globalIdx ⟨⟨1, 2, 2⟩, ⟨1, 2, 1⟩, fun _ => none, fun _ => none⟩
      (-1) 0 7 = (true, 7)) ∧
    (aMPITopology2d.global2localIdx ⟨⟨1, 2, 2⟩, ⟨1, 2, 1⟩, fun _ => none, fun _ => none⟩
      100 5 6 = (true, 5, 6)) :=
  ⟨Or.inl (by decide),
    (C10_out_of_range_returns_true ⟨⟨1, 2, 2⟩, ⟨1, 2, 1⟩, fun _ => none, fun _ => none⟩
      (-1) 0 7 100 5 6 (Or.inl (by decide)) (Or.inr (by decide))).2.1,
    (C10_out_of_range_returns_true ⟨⟨1, 2, 2⟩, ⟨1, 2, 1⟩, fun _ => none, fun _ => none⟩
      (-1) 0 7 100 5 6 (Or.inl (by decide)) (Or.inr (by decide))).2.2⟩

end feltor
